import Mathlib

namespace Stackify

/-- Opcode tags of the source's `InsKind` union type. -/
inductive InsKind where
  | Add
  | LocalSet
  | LocalGet
deriving DecidableEq, Repr

/-- An instruction of the basic block (source `interface Ins`):
an opcode tag plus an ordered operand list, where `arg ≥ 0` means a
reference to the instruction at index `arg` and `arg < 0` means the
constant `~arg` (JS bitwise complement). -/
structure Ins where
  kind : InsKind
  args : List Int
deriving DecidableEq, Repr

/-- Default instruction used for (unreachable) out-of-range block reads. -/
def dIns : Ins := ⟨.Add, []⟩

/-- JS 32-bit bitwise complement `~a` on in-range integers. -/
def jsNot (a : Int) : Int := -a - 1

/-- A JS number cell as the use-count array stores it: a missing entry
(hole or out-of-range read) is `undef`, `undefined + 1` is `nan`, and a
proper count is `num n`. -/
inductive JVal where
  | undef
  | nan
  | num (n : Int)
deriving DecidableEq, Repr

/-- A JS array of numbers, with holes: `len` is `.length` and `val` reads an
index (indices never written give `undef`, as in JS). -/
structure JArray where
  len : Nat
  val : Nat → JVal

/-- Read `a[i]`. -/
def JArray.get (a : JArray) (i : Nat) : JVal := a.val i

/-- `a.push(v)`. -/
def JArray.push (a : JArray) (v : JVal) : JArray :=
  ⟨a.len + 1, fun j => if j = a.len then v else a.val j⟩

/-- `a[i]++` with JS semantics: incrementing a hole or out-of-range entry
yields `NaN`, and assignment extends `.length` to `i + 1` when needed. -/
def JArray.incr (a : JArray) (i : Nat) : JArray :=
  ⟨max a.len (i + 1),
   fun j => if j = i then
      (match a.val i with
       | .num n => .num (n + 1)
       | _ => .nan)
    else a.val j⟩

/-- The empty JS array `[]`. -/
def JArray.emptyArr : JArray := ⟨0, fun _ => .undef⟩

/-- The use counter (first loop of `stackify`): push a zero per instruction,
then bump `uses[arg]` for every nonnegative operand. -/
def computeUses (block : List Ins) : JArray :=
  block.foldl
    (fun uses ins =>
      ins.args.foldl (fun u arg => if 0 ≤ arg then u.incr arg.toNat else u)
        (uses.push (.num 0)))
    JArray.emptyArr

/-- A recovered expression tree (source `interface Tree` together with its
children entries): `num v` embeds a JS number child (a constant), `ref i`
embeds the string child `tree i` (a back-reference), and `node` is a
`Tree` value with its opcode and ordered children. -/
inductive Tree where
  | num (v : Int)
  | ref (i : Int)
  | node (kind : InsKind) (children : List Tree)
deriving Repr

/-- Number of `node` constructors in a tree: each corresponds to exactly one
`recoverTree` call, hence to exactly one consumed instruction index. -/
def sizeT : Tree → Nat
  | .num _ => 0
  | .ref _ => 0
  | .node _ children => 1 + (children.attach.map (fun c => sizeT c.1)).sum
decreasing_by
  have h := List.sizeOf_lt_of_mem c.2
  simp only [Tree.node.sizeOf_spec]
  omega

/-- Total `sizeT` over a list of children. -/
def sizeL (l : List Tree) : Nat := (l.map sizeT).sum

@[simp] theorem sizeT_num (v : Int) : sizeT (.num v) = 0 := by simp [sizeT]

@[simp] theorem sizeT_ref (i : Int) : sizeT (.ref i) = 0 := by simp [sizeT]

@[simp] theorem sizeT_node (k : InsKind) (ch : List Tree) :
    sizeT (.node k ch) = 1 + sizeL ch := by
  rw [sizeT, sizeL]
  congr 1
  simp [List.map_attach]

/-- The operand loop of `recoverTree` (its `for (let j = ...; j >= 0; j--)`
over `ins.args`), processing the operand list right to left, so applied to
the reversed operand list; each operand `unshift`s one child.  The recursive
`recoverTree` call is abstracted as `rec` (applied to the decremented
cursor), and the mutated closure variable `index` is threaded explicitly:
the result carries the children, the `stopped` flag, and the final cursor. -/
def recoverArgs (uses : JArray) (rec : Nat → Option (Tree × Bool × Nat)) :
    List Int → Nat → List Tree → Bool → Option (List Tree × Bool × Nat)
  | [], index, children, stopped => some (children, stopped, index)
  | arg :: restArgs, index, children, stopped =>
    if arg < 0 then
      recoverArgs uses rec restArgs index (Tree.num (jsNot arg) :: children) stopped
    else if uses.get arg.toNat = JVal.num 1 ∧ arg = (index : Int) - 1 ∧ stopped = false then
      match rec (index - 1) with
      | none => none
      | some (childTree, childStopped, index') =>
        recoverArgs uses rec restArgs index' (childTree :: children) (stopped || childStopped)
    else
      recoverArgs uses rec restArgs index (Tree.ref arg :: children) true

/-- The source's `recoverTree`: recover the tree rooted at the instruction the
cursor `index` points at.  The recursion is bounded by explicit fuel (the
recursion denominates on the strictly decreasing cursor, which Lean cannot see
structurally); every call site passes enough fuel, as proved below. -/
def recoverTree (block : List Ins) (uses : JArray) : Nat → Nat → Option (Tree × Bool × Nat)
  | 0, _ => none
  | fuel + 1, index =>
    let ins := block.getD index dIns
    match recoverArgs uses (recoverTree block uses fuel) ins.args.reverse index [] false with
    | none => none
    | some (children, stopped, index') =>
      some (Tree.node ins.kind children, stopped, index')

/-- The driver loop of the Tree Recoverer (`while (index > 0) { index--;
trees.unshift([index, recoverTree()[0]]); }`): the fuel counts loop
iterations (each consumes at least one index, so `block.length` suffices). -/
def recoverLoop (block : List Ins) (uses : JArray) :
    Nat → Nat → List (Nat × Tree) → Option (List (Nat × Tree))
  | _, 0, trees => some trees
  | 0, _ + 1, _ => none
  | fuel + 1, index + 1, trees =>
    match recoverTree block uses (index + 1) index with
    | none => none
    | some (t, _, index') => recoverLoop block uses fuel index' ((index, t) :: trees)

/-- One emitted stack-machine operation.  The source builds strings; the
constructors embed them injectively: `add ↦ "i32.add"`,
`const v ↦ "i32.const v"`, `getLocal i ↦ "get_local i"`,
`setLocal i ↦ "set_local i"`, `teeLocal i ↦ "tee_local i"` (all numbers
printed in decimal, so string equality coincides with constructor and
argument equality). -/
inductive Op where
  | add
  | const (v : Int)
  | getLocal (i : Int)
  | setLocal (i : Int)
  | teeLocal (i : Int)
deriving DecidableEq, Repr

/-- The mutable state of the WASM stack code generation block: the cursor
`index`, the `locals` map (JS `Map` insertion order, newest first; keys are
instruction indices, values slot numbers), the `nextLocal` counter, and the
`wasmCode` accumulator (front of the list = earliest operation, matching the
source's `unshift` prepends). -/
structure EmitState where
  index : Nat
  locals : List (Nat × Nat)
  nextLocal : Nat
  code : List Op
deriving DecidableEq, Repr

/-- The source's `makeLocal`: look up a slot for instruction `i`, allocating
`nextLocal++` on a miss. -/
def makeLocal (st : EmitState) (i : Nat) : Nat × EmitState :=
  match st.locals.lookup i with
  | some l => (l, st)
  | none =>
    (st.nextLocal,
     { st with locals := (i, st.nextLocal) :: st.locals, nextLocal := st.nextLocal + 1 })

/-- The operand loop of `visit` (its `for (let j = ...; j >= lower; j--)`),
processing the operands right to left, so applied to the reversed (and
`lower`-truncated) operand list.  The recursive `visit` call is abstracted
as `rec`.  Note: unlike `recoverArgs` there is no `stopped` test — the
source declares `let stopped = false` in `visit` but never reads or writes
it. -/
def visitArgs (uses : JArray) (rec : EmitState → Option EmitState) :
    List Int → EmitState → Option EmitState
  | [], st => some st
  | arg :: restArgs, st =>
    if arg < 0 then
      visitArgs uses rec restArgs { st with code := Op.const (jsNot arg) :: st.code }
    else if uses.get arg.toNat = JVal.num 1 ∧ arg = (st.index : Int) - 1 then
      match rec { st with index := st.index - 1 } with
      | none => none
      | some st' => visitArgs uses rec restArgs st'
    else
      let (l, st') := makeLocal st arg.toNat
      visitArgs uses rec restArgs { st' with code := Op.getLocal l :: st'.code }

/-- The source's `visit`: emit the stack operations for the instruction the
cursor points at.  The `switch` first `unshift`s the instruction's own
operation (for `LocalGet`/`LocalSet` carrying `~args[0]` as its immediate,
with `lower = 1` so that first operand is skipped by the operand loop; JS
`~undefined = -1` for a missing `args[0]` coincides with `jsNot 0`).
Fuel-bounded exactly like `recoverTree`. -/
def visit (block : List Ins) (uses : JArray) : Nat → EmitState → Option EmitState
  | 0, _ => none
  | fuel + 1, st =>
    let ins := block.getD st.index dIns
    match ins.kind with
    | .Add =>
      visitArgs uses (visit block uses fuel) ins.args.reverse
        { st with code := Op.add :: st.code }
    | .LocalGet =>
      visitArgs uses (visit block uses fuel) (ins.args.drop 1).reverse
        { st with code := Op.getLocal (jsNot (ins.args.headD 0)) :: st.code }
    | .LocalSet =>
      visitArgs uses (visit block uses fuel) (ins.args.drop 1).reverse
        { st with code := Op.setLocal (jsNot (ins.args.headD 0)) :: st.code }

/-- The store/tee logic at the top of each driver-loop iteration of the Stack
Emitter, for the root at position `i`: if `i` has an assigned slot, prepend a
`set_local` — unless the most recently emitted operation (`wasmCode[0]`) is
`get_local` of that exact slot, which is replaced by `tee_local` instead.
Also moves the cursor to `i`. -/
def adjustStore (st : EmitState) (i : Nat) : EmitState :=
  match st.locals.lookup i with
  | none => { st with index := i }
  | some l =>
    match st.code with
    | Op.getLocal l' :: tail =>
      if l' = l then { st with index := i, code := Op.teeLocal l :: tail }
      else { st with index := i, code := Op.setLocal l :: st.code }
    | _ => { st with index := i, code := Op.setLocal l :: st.code }

/-- The driver loop of the Stack Emitter (`while (index > 0) { index--;
...store or tee...; visit(); }`), fuel-bounded like `recoverLoop`. -/
def emitLoop (block : List Ins) (uses : JArray) : Nat → EmitState → Option EmitState
  | 0, st => if st.index = 0 then some st else none
  | fuel + 1, st =>
    if st.index = 0 then some st
    else
      match visit block uses st.index (adjustStore st (st.index - 1)) with
      | none => none
      | some st' => emitLoop block uses fuel st'

/-- `emitLoop` instrumented with a trace: identical control flow, but also
returns, in ascending root order, one entry `(root, state at iteration
start, state after visiting the root)` per driver-loop iteration. -/
def emitTrace (block : List Ins) (uses : JArray) :
    Nat → EmitState → Option (EmitState × List (Nat × EmitState × EmitState))
  | 0, st => if st.index = 0 then some (st, []) else none
  | fuel + 1, st =>
    if st.index = 0 then some (st, [])
    else
      match visit block uses st.index (adjustStore st (st.index - 1)) with
      | none => none
      | some st' =>
        match emitTrace block uses fuel st' with
        | none => none
        | some (stF, tr) => some (stF, tr ++ [(st.index - 1, st, st')])

/-- Initial state of the Stack Emitter for a block of `n` instructions:
cursor at `n`, empty locals map, `nextLocal = 100`, no code. -/
def initEmit (n : Nat) : EmitState := ⟨n, [], 100, []⟩

/-- The whole transform (the source's `stackify`, which then prints): the use
counter, the Tree Recoverer and the Stack Emitter in order, returning the
forest, the operation sequence and the final local-slot table.  `none` can
only arise from fuel exhaustion, which never happens (proved below): the
source has no failure path at all. -/
def stackify (block : List Ins) :
    Option (List (Nat × Tree) × List Op × List (Nat × Nat)) :=
  let uses := computeUses block
  match recoverLoop block uses block.length block.length [] with
  | none => none
  | some trees =>
    match emitLoop block uses block.length (initEmit block.length) with
    | none => none
    | some st => some (trees, st.code, st.locals)

/-- Well-formed block: every nonnegative operand references a strictly
earlier instruction (the spec's `Ref(i)` invariant `i < current_index`). -/
def wfb (block : List Ins) : Bool :=
  (List.range block.length).all fun i =>
    ((block.getD i dIns).args.all fun arg => arg < (i : Int))

/-- The local indices the source program itself uses: the `~args[0]`
immediates of its `LocalGet`/`LocalSet` instructions. -/
def sourceLocals (block : List Ins) : List Int :=
  block.foldr
    (fun ins acc =>
      match ins.kind with
      | .Add => acc
      | _ => jsNot (ins.args.headD 0) :: acc)
    []

/-- The constants of an instruction's operand list as seen by the Stack
Emitter's operand loop: operands below `lower` (the embedded local immediate
of `LocalGet`/`LocalSet`) are excluded. -/
def constArgs (ins : Ins) : List Int :=
  ((match ins.kind with
    | .Add => ins.args
    | _ => ins.args.drop 1).filter fun a => a < 0).map jsNot

/-- The immediates of the `const` operations of an operation sequence. -/
def constsOf (code : List Op) : List Int :=
  code.filterMap fun op =>
    match op with
    | .const v => some v
    | _ => none

/-- The constants contributed by the instructions at positions
`[lo, hi)` of the block. -/
def constRange (block : List Ins) (lo hi : Nat) : List Int :=
  (List.range' lo (hi - lo)).flatMap fun p => constArgs (block.getD p dIns)

/-- Number of `Ref(k)` operands across the whole block. -/
def refsCount (block : List Ins) (k : Nat) : Nat :=
  (block.map fun ins => ins.args.count (k : Int)).sum

@[simp] theorem sizeL_nil : sizeL [] = 0 := rfl

@[simp] theorem sizeL_cons (t : Tree) (l : List Tree) :
    sizeL (t :: l) = sizeT t + sizeL l := by simp [sizeL]

@[simp] theorem sizeL_append (a b : List Tree) :
    sizeL (a ++ b) = sizeL a + sizeL b := by simp [sizeL]

@[simp] theorem constsOf_nil : constsOf [] = [] := rfl

@[simp] theorem constsOf_append (a b : List Op) :
    constsOf (a ++ b) = constsOf a ++ constsOf b := by
  simp [constsOf]

@[simp] theorem constsOf_cons_add (l : List Op) :
    constsOf (Op.add :: l) = constsOf l := rfl

@[simp] theorem constsOf_cons_const (v : Int) (l : List Op) :
    constsOf (Op.const v :: l) = v :: constsOf l := rfl

@[simp] theorem constsOf_cons_getLocal (i : Int) (l : List Op) :
    constsOf (Op.getLocal i :: l) = constsOf l := rfl

@[simp] theorem constsOf_cons_setLocal (i : Int) (l : List Op) :
    constsOf (Op.setLocal i :: l) = constsOf l := rfl

@[simp] theorem constsOf_cons_teeLocal (i : Int) (l : List Op) :
    constsOf (Op.teeLocal i :: l) = constsOf l := rfl

@[simp] theorem constRange_self (block : List Ins) (lo : Nat) :
    constRange block lo lo = [] := by
  simp [constRange]

theorem constRange_append (block : List Ins) (lo mid hi : Nat)
    (h1 : lo ≤ mid) (h2 : mid ≤ hi) :
    constRange block lo mid ++ constRange block mid hi = constRange block lo hi := by
  unfold constRange
  rw [← List.flatMap_append]
  congr 1
  have h3 := List.range'_append_1 lo (mid - lo) (hi - mid)
  rw [show lo + (mid - lo) = mid by omega] at h3
  rw [h3]
  congr 1
  omega

theorem constRange_succ_last (block : List Ins) (lo hi : Nat) (h : lo ≤ hi) :
    constRange block lo (hi + 1) = constRange block lo hi ++ constArgs (block.getD hi dIns) := by
  rw [← constRange_append block lo hi (hi + 1) h (by omega)]
  congr 1
  unfold constRange
  rw [show hi + 1 - hi = 1 by omega]
  simp

@[simp] theorem JArray.get_push (a : JArray) (v : JVal) (k : Nat) :
    (a.push v).get k = if k = a.len then v else a.get k := rfl

@[simp] theorem JArray.len_push (a : JArray) (v : JVal) :
    (a.push v).len = a.len + 1 := rfl

@[simp] theorem JArray.get_incr (a : JArray) (i k : Nat) :
    (a.incr i).get k =
      if k = i then
        (match a.get i with
         | .num n => JVal.num (n + 1)
         | _ => JVal.nan)
      else a.get k := rfl

@[simp] theorem JArray.len_incr (a : JArray) (i : Nat) :
    (a.incr i).len = max a.len (i + 1) := rfl

/-- A well-formed block, read positionally: every operand of the instruction
at position `i` is (strictly) below `i` — constants are negative, so this is
exactly the strict-backward-reference condition on `Ref` operands. -/
theorem wfb_spec (block : List Ins) (hwf : wfb block = true) :
    ∀ i, ∀ arg ∈ (block.getD i dIns).args, arg < (i : Int) := by
  intro i arg harg
  by_cases hi : i < block.length
  · rw [wfb, List.all_eq_true] at hwf
    have h1 := hwf i (List.mem_range.mpr hi)
    rw [List.all_eq_true] at h1
    have h2 := h1 arg harg
    exact_mod_cast of_decide_eq_true h2
  · rw [List.getD_eq_default] at harg
    · simp [dIns] at harg
    · omega

/-- The inner operand fold of the use counter, on an array aligned with a
tally `f` over `[0, m)`: it bumps the tally of each in-range reference. -/
theorem argsFold_aligned (m : Nat) :
    ∀ (args : List Int) (f : Nat → Nat) (u : JArray),
      u.len = m →
      (∀ k, u.get k = if k < m then JVal.num (f k : Int) else JVal.undef) →
      (∀ arg ∈ args, arg < (m : Int)) →
      (args.foldl (fun u arg => if 0 ≤ arg then u.incr arg.toNat else u) u).len = m ∧
      ∀ k, (args.foldl (fun u arg => if 0 ≤ arg then u.incr arg.toNat else u) u).get k =
        if k < m then JVal.num ((f k + args.count (k : Int) : Nat) : Int) else JVal.undef := by
  intro args
  induction args with
  | nil => intro f u hlen hget _; exact ⟨hlen, by simpa using hget⟩
  | cons arg rest ih =>
    intro f u hlen hget hbd
    by_cases h0 : 0 ≤ arg
    · have hargm : arg.toNat < m := by
        have := hbd arg (by simp)
        omega
      have hstep :
          (arg :: rest).foldl (fun u arg => if 0 ≤ arg then u.incr arg.toNat else u) u =
          rest.foldl (fun u arg => if 0 ≤ arg then u.incr arg.toNat else u) (u.incr arg.toNat) := by
        simp [h0]
      rw [hstep]
      have hlen' : (u.incr arg.toNat).len = m := by
        simp [hlen]
        omega
      have hget' : ∀ k, (u.incr arg.toNat).get k =
          if k < m then JVal.num ((f k + if (k : Int) = arg then 1 else 0 : Nat) : Int)
          else JVal.undef := by
        intro k
        rw [JArray.get_incr]
        by_cases hk : k = arg.toNat
        · subst hk
          rw [hget arg.toNat, if_pos hargm, if_pos hargm, if_pos rfl]
          have : (arg.toNat : Int) = arg := Int.toNat_of_nonneg h0
          rw [if_pos this]
          push_cast
          ring_nf
        · rw [if_neg hk, hget k]
          by_cases hkm : k < m
          · rw [if_pos hkm, if_pos hkm]
            have : ¬((k : Int) = arg) := by
              intro hc
              apply hk
              omega
            rw [if_neg this]
            simp
          · rw [if_neg hkm, if_neg hkm]
      obtain ⟨hl, hg⟩ := ih (fun k => f k + if (k : Int) = arg then 1 else 0)
        (u.incr arg.toNat) hlen' hget' (fun a ha => hbd a (by simp [ha]))
      refine ⟨hl, fun k => ?_⟩
      rw [hg k]
      by_cases hkm : k < m
      · rw [if_pos hkm, if_pos hkm]
        rw [List.count_cons]
        congr 1
        by_cases hka : (k : Int) = arg
        · rw [if_pos hka, if_pos (beq_iff_eq.mpr hka.symm)]
          ring_nf
        · rw [if_neg hka, if_neg (fun h => hka (beq_iff_eq.mp h).symm)]
          ring_nf
      · rw [if_neg hkm, if_neg hkm]
    · have hstep :
          (arg :: rest).foldl (fun u arg => if 0 ≤ arg then u.incr arg.toNat else u) u =
          rest.foldl (fun u arg => if 0 ≤ arg then u.incr arg.toNat else u) u := by
        simp [h0]
      rw [hstep]
      obtain ⟨hl, hg⟩ := ih f u hlen hget (fun a ha => hbd a (by simp [ha]))
      refine ⟨hl, fun k => ?_⟩
      rw [hg k]
      by_cases hkm : k < m
      · rw [if_pos hkm, if_pos hkm]
        rw [List.count_cons]
        have hka : ¬((k : Int) = arg) := by
          intro hc
          apply h0
          omega
        rw [if_neg (fun h => hka (beq_iff_eq.mp h).symm)]
        simp
      · rw [if_neg hkm, if_neg hkm]

/-- The outer fold of the use counter, on an array aligned with a tally over
its processed prefix: processing the remaining instructions (whose references
all point strictly below their own positions) extends the array by one
aligned zero-initialised cell per instruction and adds each instruction's
reference tallies. -/
theorem computeUses_aligned :
    ∀ (rest : List Ins) (m : Nat) (f : Nat → Nat) (u : JArray),
      u.len = m →
      (∀ k, u.get k = if k < m then JVal.num (f k : Int) else JVal.undef) →
      (∀ j, ∀ arg ∈ (rest.getD j dIns).args, arg < ((m + j : Nat) : Int)) →
      (rest.foldl
          (fun uses ins =>
            ins.args.foldl (fun u arg => if 0 ≤ arg then u.incr arg.toNat else u)
              (uses.push (.num 0)))
          u).len = m + rest.length ∧
      ∀ k, (rest.foldl
          (fun uses ins =>
            ins.args.foldl (fun u arg => if 0 ≤ arg then u.incr arg.toNat else u)
              (uses.push (.num 0)))
          u).get k =
        if k < m + rest.length
        then JVal.num (((if k < m then f k else 0) +
          (rest.map fun ins => ins.args.count (k : Int)).sum : Nat) : Int)
        else JVal.undef := by
  intro rest
  induction rest with
  | nil =>
    intro m f u hlen hget _
    refine ⟨by simpa using hlen, fun k => ?_⟩
    rw [List.foldl_nil, hget k]
    by_cases hkm : k < m
    · simp [hkm]
    · simp [hkm]
  | cons ins rest ih =>
    intro m f u hlen hget hbd
    have hbd0 : ∀ arg ∈ ins.args, arg < ((m + 1 : Nat) : Int) := by
      intro a ha
      have := hbd 0 a (by simpa using ha)
      push_cast at this ⊢
      omega
    have hget1 : ∀ k, (u.push (.num 0)).get k =
        if k < m + 1 then JVal.num ((if k < m then f k else 0 : Nat) : Int)
        else JVal.undef := by
      intro k
      rw [JArray.get_push, hget k, hlen]
      by_cases hk : k = m
      · subst hk
        simp
      · rw [if_neg hk]
        by_cases hkm : k < m
        · rw [if_pos hkm, if_pos (by omega), if_pos hkm]
        · rw [if_neg hkm, if_neg (by omega)]
    obtain ⟨hl2, hg2⟩ := argsFold_aligned (m + 1) ins.args
      (fun k => if k < m then f k else 0) (u.push (.num 0)) (by simp [hlen]) hget1 hbd0
    have hbd' : ∀ j, ∀ arg ∈ ((rest.getD j dIns)).args, arg < ((m + 1 + j : Nat) : Int) := by
      intro j a ha
      have := hbd (j + 1) a (by simpa using ha)
      push_cast at this ⊢
      omega
    obtain ⟨hl3, hg3⟩ := ih (m + 1)
      (fun k => (if k < m then f k else 0) + ins.args.count (k : Int))
      _ hl2 hg2 hbd'
    rw [List.foldl_cons]
    refine ⟨by rw [hl3]; simp only [List.length_cons]; omega, fun k => ?_⟩
    rw [hg3 k]
    by_cases hk1 : k < m + 1 + rest.length
    · rw [if_pos hk1, if_pos (show k < m + (ins :: rest).length by
        simp only [List.length_cons]; omega)]
      by_cases hk2 : k < m + 1
      · rw [if_pos hk2]
        simp only [List.map_cons, List.sum_cons]
        congr 1
        push_cast
        ring
      · rw [if_neg hk2]
        simp only [List.map_cons, List.sum_cons]
        have hz : ins.args.count (k : Int) = 0 := by
          rw [List.count_eq_zero]
          intro hc
          have := hbd0 _ hc
          push_cast at this
          omega
        have hkm : ¬ k < m := by omega
        rw [if_neg hkm] at *
        rw [hz]
        congr 1
        push_cast
        ring
    · rw [if_neg hk1, if_neg (show ¬ k < m + (ins :: rest).length by
        simp only [List.length_cons]; omega)]

/-- Structural soundness of the operand loop of the Tree Recoverer, generic
in the recursive call: it always succeeds, adds one child per operand, only
moves the cursor downward, and the added children's node count is exactly
the number of consumed cursor positions. -/
theorem recoverArgs_sound (uses : JArray) (rec : Nat → Option (Tree × Bool × Nat)) (N : Nat)
    (Hrec : ∀ j, j < N → ∃ t s e, rec j = some (t, s, e) ∧ e ≤ j ∧ sizeT t = j + 1 - e) :
    ∀ (args : List Int) (idx : Nat) (ch : List Tree) (st : Bool), idx ≤ N →
      ∃ (nw : List Tree) (s : Bool) (e : Nat),
        recoverArgs uses rec args idx ch st = some (nw ++ ch, s, e) ∧ e ≤ idx ∧
        nw.length = args.length ∧ sizeL nw = idx - e := by
  intro args
  induction args with
  | nil =>
    intro idx ch st _
    exact ⟨[], st, idx, rfl, le_refl _, rfl, by simp⟩
  | cons arg rest ih =>
    intro idx ch st h
    by_cases h1 : arg < 0
    · obtain ⟨nw, s, e, heq, he, hlen, hsz⟩ := ih idx (Tree.num (jsNot arg) :: ch) st h
      refine ⟨nw ++ [Tree.num (jsNot arg)], s, e, ?_, he, ?_, ?_⟩
      · simp only [recoverArgs, if_pos h1, heq, List.append_assoc, List.singleton_append]
      · simp [hlen]
      · simp [hsz]
    · by_cases h2 : uses.get arg.toNat = JVal.num 1 ∧ arg = (idx : Int) - 1 ∧ st = false
      · have hidx1 : 1 ≤ idx := by omega
        have hlt : idx - 1 < N := by omega
        obtain ⟨t, s1, e1, hrec, he1, hsz1⟩ := Hrec (idx - 1) hlt
        obtain ⟨nw, s, e, heq, he, hlen, hsz⟩ := ih e1 (t :: ch) (st || s1) (by omega)
        refine ⟨nw ++ [t], s, e, ?_, by omega, ?_, ?_⟩
        · simp only [recoverArgs, if_neg h1, if_pos h2, hrec, heq, List.append_assoc,
            List.singleton_append]
        · simp [hlen]
        · simp only [sizeL_append, sizeL_cons, sizeL_nil, hsz, hsz1]
          omega
      · obtain ⟨nw, s, e, heq, he, hlen, hsz⟩ := ih idx (Tree.ref arg :: ch) true h
        refine ⟨nw ++ [Tree.ref arg], s, e, ?_, he, ?_, ?_⟩
        · simp only [recoverArgs, if_neg h1, if_neg h2, heq, List.append_assoc,
            List.singleton_append]
        · simp [hlen]
        · simp [hsz]

/-- Once the `stopped` flag is set, the rest of the operand loop inlines
nothing: it consumes no further cursor positions, stays stopped, and every
remaining operand becomes a constant leaf or a back-reference — never a
nested tree. -/
theorem recoverArgs_stopped (uses : JArray) (rec : Nat → Option (Tree × Bool × Nat)) :
    ∀ (args : List Int) (idx : Nat) (ch : List Tree),
      ∃ nw, recoverArgs uses rec args idx ch true = some (nw ++ ch, true, idx) ∧
        nw.length = args.length ∧ ∀ c ∈ nw, ∀ k cs, c ≠ Tree.node k cs := by
  intro args
  induction args with
  | nil => intro idx ch; exact ⟨[], rfl, rfl, by simp⟩
  | cons arg rest ih =>
    intro idx ch
    by_cases h1 : arg < 0
    · obtain ⟨nw, heq, hlen, hsh⟩ := ih idx (Tree.num (jsNot arg) :: ch)
      refine ⟨nw ++ [Tree.num (jsNot arg)], ?_, by simp [hlen], ?_⟩
      · simp only [recoverArgs, if_pos h1, heq, List.append_assoc, List.singleton_append]
      · intro c hc k cs
        rcases List.mem_append.mp hc with hc | hc
        · exact hsh c hc k cs
        · simp only [List.mem_singleton] at hc
          subst hc
          simp
    · have h2 : ¬(uses.get arg.toNat = JVal.num 1 ∧ arg = (idx : Int) - 1 ∧ true = false) := by
        rintro ⟨-, -, h⟩
        exact absurd h (by simp)
      obtain ⟨nw, heq, hlen, hsh⟩ := ih idx (Tree.ref arg :: ch)
      refine ⟨nw ++ [Tree.ref arg], ?_, by simp [hlen], ?_⟩
      · simp only [recoverArgs, if_neg h1, if_neg h2, heq, List.append_assoc,
          List.singleton_append]
      · intro c hc k cs
        rcases List.mem_append.mp hc with hc | hc
        · exact hsh c hc k cs
        · simp only [List.mem_singleton] at hc
          subst hc
          simp

/-- `recoverTree` always produces a `node`. -/
theorem recoverTree_shape (block : List Ins) (uses : JArray) (fuel idx : Nat)
    (t : Tree) (s : Bool) (e : Nat) (h : recoverTree block uses fuel idx = some (t, s, e)) :
    ∃ k cs, t = Tree.node k cs := by
  match fuel with
  | 0 => simp [recoverTree] at h
  | fuel + 1 =>
    rw [recoverTree] at h
    rcases hm : recoverArgs uses (recoverTree block uses fuel)
        (block.getD idx dIns).args.reverse idx [] false with - | ⟨⟨ch, s', e'⟩⟩
    · rw [hm] at h; exact absurd h (by simp)
    · rw [hm] at h
      simp only [Option.some.injEq, Prod.mk.injEq] at h
      exact ⟨_, _, h.1.symm⟩

/-- `recoverTree` with fuel exceeding the cursor always succeeds, moves the
cursor only downward, and produces a tree whose node count is exactly the
number of consumed positions (`idx` down to the final cursor). -/
theorem recoverTree_sound (block : List Ins) (uses : JArray) :
    ∀ (fuel idx : Nat), idx < fuel →
      ∃ t s e, recoverTree block uses fuel idx = some (t, s, e) ∧ e ≤ idx ∧
        sizeT t = idx + 1 - e := by
  intro fuel
  induction fuel with
  | zero => intro idx h; omega
  | succ fuel ih =>
    intro idx h
    obtain ⟨nw, s, e, heq, he, _, hsz⟩ :=
      recoverArgs_sound uses (recoverTree block uses fuel) fuel ih
        (block.getD idx dIns).args.reverse idx [] false (by omega)
    refine ⟨Tree.node (block.getD idx dIns).kind (nw ++ []), s, e, ?_, he, ?_⟩
    · simp only [recoverTree, heq]
    · simp only [sizeT_node, sizeL_append, sizeL_nil, hsz]
      omega

/-- The Tree Recoverer's driver loop with fuel at least the cursor always
succeeds; the recovered forest extends the accumulator in front, its roots
are strictly increasing, and the consumed cursor ranges of its trees tile
`[0, index)` exactly — every instruction index is consumed by exactly one
tree, as that tree's root or one of its `sizeT`-counted nodes. -/
theorem recoverLoop_sound (block : List Ins) (uses : JArray) :
    ∀ (fuel index : Nat) (trees : List (Nat × Tree)), index ≤ fuel →
      ∃ F, recoverLoop block uses fuel index trees = some (F ++ trees) ∧
        (F.flatMap fun p => List.range' (p.1 + 1 - sizeT p.2) (sizeT p.2)) =
          List.range index ∧
        (∀ p ∈ F, p.1 < index) ∧
        List.Pairwise (· < ·) (F.map Prod.fst) := by
  intro fuel
  induction fuel with
  | zero =>
    intro index trees h
    have h0 : index = 0 := by omega
    subst h0
    exact ⟨[], rfl, by simp, by simp, by simp⟩
  | succ fuel ih =>
    intro index trees h
    match index with
    | 0 => exact ⟨[], rfl, by simp, by simp, by simp⟩
    | index + 1 =>
      obtain ⟨t, s, e, heq, he, hsz⟩ :=
        recoverTree_sound block uses (index + 1) index (by omega)
      obtain ⟨F, hF, hcov, hlt, hpw⟩ := ih e ((index, t) :: trees) (by omega)
      refine ⟨F ++ [(index, t)], ?_, ?_, ?_, ?_⟩
      · simp only [recoverLoop, heq, hF, List.append_assoc, List.singleton_append]
      · have h1 : index + 1 - (index + 1 - e) = e := by omega
        have h2 : List.range (index + 1) = List.range e ++ List.range' e (index + 1 - e) := by
          rw [List.range_eq_range', List.range_eq_range']
          have h3 := List.range'_append_1 0 e (index + 1 - e)
          simp only [Nat.zero_add] at h3
          rw [h3]
          congr 1
          omega
        simp only [List.flatMap_append, hcov, List.flatMap_cons, List.flatMap_nil,
          List.append_nil, hsz, h1, h2]
      · intro p hp
        rcases List.mem_append.mp hp with hp | hp
        · exact Nat.lt_succ_of_lt (Nat.lt_of_lt_of_le (hlt p hp) he)
        · simp only [List.mem_singleton] at hp
          subst hp
          omega
      · simp only [List.map_append, List.map_cons, List.map_nil]
        rw [List.pairwise_append]
        refine ⟨hpw, by simp, ?_⟩
        intro a ha b hb
        simp only [List.mem_singleton] at hb
        subst hb
        obtain ⟨p, hp, hpa⟩ := List.mem_map.mp ha
        subst hpa
        exact Nat.lt_of_lt_of_le (hlt p hp) he

/-- Invariant of the emitter's local-slot table: the assigned slot numbers
are exactly `100, 101, …, nextLocal - 1` (newest first, matching the
prepend-on-allocate representation), the counter never falls below its
starting value `100`, and no instruction index is mapped twice. -/
def LocInv (st : EmitState) : Prop :=
  st.locals.map Prod.snd = (List.range' 100 (st.nextLocal - 100)).reverse ∧
  100 ≤ st.nextLocal ∧
  (st.locals.map Prod.fst).Nodup

/-- What one `visit` call guarantees, relating entry state to exit state:
the cursor only moves down; the slot counter only grows; assigned slots are
never changed; the slot-table invariant is preserved; the call prepends a
nonempty batch of operations whose constants are, up to permutation, the
`constArgs` of the consumed position range; and (for well-formed blocks) no
slot at or above the entry cursor is touched. -/
def VStep (block : List Ins) (st st' : EmitState) : Prop :=
  st'.index ≤ st.index ∧
  st.nextLocal ≤ st'.nextLocal ∧
  (∀ k v, st.locals.lookup k = some v → st'.locals.lookup k = some v) ∧
  (LocInv st → LocInv st') ∧
  (∃ ops, ops ≠ [] ∧ st'.code = ops ++ st.code ∧
    List.Perm (constsOf ops) (constRange block st'.index (st.index + 1))) ∧
  (wfb block = true → ∀ k, st.index ≤ k → st'.locals.lookup k = st.locals.lookup k)

/-- What the operand loop of `visit` guarantees over a remaining operand
list, analogous to `VStep`; the constants accounting splits into the
remaining operands' own constants plus those of the consumed range, and the
untouched-slots clause is relative to any bound `M` on the operands. -/
def AStep (block : List Ins) (args : List Int) (st st' : EmitState) : Prop :=
  st'.index ≤ st.index ∧
  st.nextLocal ≤ st'.nextLocal ∧
  (∀ k v, st.locals.lookup k = some v → st'.locals.lookup k = some v) ∧
  (LocInv st → LocInv st') ∧
  (∃ ops, st'.code = ops ++ st.code ∧
    List.Perm (constsOf ops)
      (((args.filter fun a => a < 0).map jsNot) ++ constRange block st'.index st.index)) ∧
  (∀ M : Nat, (∀ a ∈ args, 0 ≤ a → a < (M : Int)) → wfb block = true →
    ∀ k, M ≤ k → st.index ≤ k → st'.locals.lookup k = st.locals.lookup k)

/-- `makeLocal` touches nothing but the slot table, and that monotonically:
it can only add a binding for the requested key, keeps every existing
binding, preserves the table invariant, and returns a slot consistent with
it. -/
theorem makeLocal_sound (st : EmitState) (i : Nat) :
    (makeLocal st i).2.index = st.index ∧
    (makeLocal st i).2.code = st.code ∧
    st.nextLocal ≤ (makeLocal st i).2.nextLocal ∧
    (∀ k v, st.locals.lookup k = some v → (makeLocal st i).2.locals.lookup k = some v) ∧
    (∀ k, k ≠ i → (makeLocal st i).2.locals.lookup k = st.locals.lookup k) ∧
    (LocInv st → LocInv (makeLocal st i).2) := by
  unfold makeLocal
  cases h : st.locals.lookup i with
  | some l =>
    exact ⟨rfl, rfl, le_refl _, fun k v hk => hk, fun k _ => rfl, fun hi => hi⟩
  | none =>
    refine ⟨rfl, rfl, by simp, ?_, ?_, ?_⟩
    · intro k v hk
      rw [List.lookup_cons]
      by_cases hki : k = i
      · subst hki
        rw [hk] at h
        exact absurd h (by simp)
      · have hb : (k == i) = false := by simpa using hki
        rw [hb]
        exact hk
    · intro k hki
      rw [List.lookup_cons]
      have hb : (k == i) = false := by simpa using hki
      rw [hb]
    · rintro ⟨hvals, hge, hkeys⟩
      refine ⟨?_, by simp; omega, ?_⟩
      · simp only [List.map_cons, hvals]
        have h1 : st.nextLocal + 1 - 100 = (st.nextLocal - 100) + 1 := by omega
        rw [h1, List.range'_1_concat, List.reverse_append]
        have h2 : 100 + (st.nextLocal - 100) = st.nextLocal := by omega
        rw [h2]
        rfl
      · simp only [List.map_cons, List.nodup_cons]
        refine ⟨?_, hkeys⟩
        intro hmem
        rw [List.lookup_eq_none_iff] at h
        obtain ⟨p, hp, hpi⟩ := List.mem_map.mp hmem
        have := h p hp
        rw [hpi] at this
        simp at this

/-- Soundness of the emitter's operand loop, generic in the recursive call:
if `rec` satisfies `VStep` whenever its entry cursor is below `N`, then the
loop always succeeds from any cursor at most `N` and satisfies `AStep`. -/
theorem visitArgs_sound (block : List Ins) (uses : JArray)
    (rec : EmitState → Option EmitState) (N : Nat)
    (Hrec : ∀ st : EmitState, st.index < N → ∃ st', rec st = some st' ∧ VStep block st st') :
    ∀ (args : List Int) (st : EmitState), st.index ≤ N →
      ∃ st', visitArgs uses rec args st = some st' ∧ AStep block args st st' := by
  intro args
  induction args with
  | nil =>
    intro st _
    exact ⟨st, rfl, le_refl _, le_refl _, fun k v hk => hk, fun hv => hv,
      ⟨[], rfl, by simp⟩, fun M _ _ k _ _ => rfl⟩
  | cons arg rest ih =>
    intro st h
    by_cases h1 : arg < 0
    · obtain ⟨st', heq, hi, hn, hlk, hinv, ⟨ops, hcode, hperm⟩, hM⟩ :=
        ih { st with code := Op.const (jsNot arg) :: st.code } h
      refine ⟨st', ?_, hi, hn, hlk, hinv, ?_, ?_⟩
      · rw [visitArgs, if_pos h1]
        exact heq
      · refine ⟨ops ++ [Op.const (jsNot arg)], by rw [hcode]; simp, ?_⟩
        rw [constsOf_append, constsOf_cons_const, constsOf_nil]
        have hf : (arg :: rest).filter (fun a => a < 0) = arg :: rest.filter (fun a => a < 0) := by
          simp [List.filter_cons, h1]
        rw [hf]
        have p1 := hperm.append_right [jsNot arg]
        have p2 := List.perm_append_singleton (jsNot arg)
          (((rest.filter fun a => a < 0).map jsNot) ++ constRange block st'.index st.index)
        have p3 := p1.trans p2
        simpa using p3
      · intro M hbd hwf k hMk hik
        exact hM M (fun a ha h0 => hbd a (by simp [ha]) h0) hwf k hMk hik
    · by_cases h2 : uses.get arg.toNat = JVal.num 1 ∧ arg = (st.index : Int) - 1
      · have hge1 : 1 ≤ st.index := by
          rcases h2 with ⟨-, h2b⟩
          omega
        obtain ⟨st1, hrec, hi1, hn1, hlk1, hinv1, ⟨ops1, hne1, hcode1, hperm1⟩, hw1⟩ :=
          Hrec { st with index := st.index - 1 } (by simp; omega)
        obtain ⟨st2, heq2, hi2, hn2, hlk2, hinv2, ⟨ops2, hcode2, hperm2⟩, hM2⟩ :=
          ih st1 (by simp at hi1; omega)
        refine ⟨st2, ?_, ?_, by simp at hn1; omega, fun k v hk => hlk2 k v (hlk1 k v hk),
          fun hv => hinv2 (hinv1 hv), ?_, ?_⟩
        · rw [visitArgs, if_neg h1, if_pos h2, hrec]
          exact heq2
        · simp only at hi1
          omega
        · refine ⟨ops2 ++ ops1, ?_, ?_⟩
          · rw [hcode2, hcode1, List.append_assoc]
          · rw [constsOf_append]
            simp only at hperm1
            have e1 : st.index - 1 + 1 = st.index := by omega
            rw [e1] at hperm1
            have hf : (arg :: rest).filter (fun a => a < 0) = rest.filter (fun a => a < 0) := by
              simp [List.filter_cons, h1]
            rw [hf]
            have p1 := hperm2.append hperm1
            have p2 : constRange block st2.index st1.index ++
                constRange block st1.index st.index = constRange block st2.index st.index :=
              constRange_append block st2.index st1.index st.index hi2
                (by simp at hi1; omega)
            rw [List.append_assoc, p2] at p1
            exact p1
        · intro M hbd hwf k hMk hik
          have hk1 : st1.locals.lookup k = st.locals.lookup k := by
            have := hw1 hwf k (by simp; omega)
            simpa using this
          have hk2 : st2.locals.lookup k = st1.locals.lookup k :=
            hM2 M (fun a ha h0 => hbd a (by simp [ha]) h0) hwf k hMk
              (by simp at hi1; omega)
          rw [hk2, hk1]
      · rcases hml : makeLocal st arg.toNat with ⟨l, stM⟩
        have hms := makeLocal_sound st arg.toNat
        rw [hml] at hms
        dsimp only at hms
        obtain ⟨hmi, hmc, hmn, hmlk, hmky, hminv⟩ := hms
        obtain ⟨st', heq, hi, hn, hlk, hinv, ⟨ops, hcode, hperm⟩, hM⟩ :=
          ih { stM with code := Op.getLocal l :: stM.code } (by simp [hmi]; omega)
        refine ⟨st', ?_, by simp [hmi] at hi; omega, by simp at hn; omega,
          fun k v hk => hlk k v (hmlk k v hk), fun hv => hinv (hminv hv), ?_, ?_⟩
        · rw [visitArgs, if_neg h1, if_neg h2, hml]
          exact heq
        · refine ⟨ops ++ [Op.getLocal l], by rw [hcode, hmc]; simp, ?_⟩
          rw [constsOf_append, constsOf_cons_getLocal, constsOf_nil, List.append_nil]
          have hf : (arg :: rest).filter (fun a => a < 0) = rest.filter (fun a => a < 0) := by
            simp [List.filter_cons, h1]
          rw [hf]
          have e1 : st.index = EmitState.index { stM with code := Op.getLocal l :: stM.code } := by
            simp [hmi]
          rw [e1]
          exact hperm
        · intro M hbd hwf k hMk hik
          have hk1 : stM.locals.lookup k = st.locals.lookup k := by
            apply hmky
            have h0 : (0 : Int) ≤ arg := by omega
            have := hbd arg (by simp) h0
            omega
          have hk2 : st'.locals.lookup k = stM.locals.lookup k := by
            have := hM M (fun a ha h0 => hbd a (by simp [ha]) h0) hwf k hMk (by simp [hmi]; omega)
            simpa using this
          rw [hk2, hk1]

/-- Assembly step shared by the three opcode cases of `visit`: after the
instruction's own operation is prepended, running the operand loop yields a
full `VStep`, provided the processed operand list accounts exactly for the
instruction's `constArgs` and is bounded by the entry cursor on well-formed
blocks. -/
theorem visit_assemble (block : List Ins) (uses : JArray)
    (rec : EmitState → Option EmitState) (N : Nat)
    (Hrec : ∀ st : EmitState, st.index < N → ∃ st', rec st = some st' ∧ VStep block st st')
    (st : EmitState) (h : st.index ≤ N) (processed : List Int) (op : Op)
    (hop : constsOf [op] = [])
    (hconsts : List.Perm ((processed.filter fun a => a < 0).map jsNot)
      (constArgs (block.getD st.index dIns)))
    (hbound : wfb block = true → ∀ a ∈ processed, 0 ≤ a → a < (st.index : Int)) :
    ∃ st', visitArgs uses rec processed { st with code := op :: st.code } = some st' ∧
      VStep block st st' := by
  obtain ⟨st', heq, hi, hn, hlk, hinv, ⟨ops, hcode, hperm⟩, hM⟩ :=
    visitArgs_sound block uses rec N Hrec processed { st with code := op :: st.code } h
  dsimp only at hi hn hperm hcode
  refine ⟨st', heq, hi, hn, hlk, hinv, ?_, ?_⟩
  · refine ⟨ops ++ [op], by simp, by rw [hcode]; simp, ?_⟩
    rw [constsOf_append, hop, List.append_nil]
    rw [constRange_succ_last block st'.index st.index hi]
    have p2 := @List.perm_append_comm _ ((processed.filter fun a => a < 0).map jsNot)
      (constRange block st'.index st.index)
    exact (hperm.trans p2).trans (List.Perm.append_left _ hconsts)
  · intro hwf k hk
    have hres := hM st.index (fun a ha h0 => hbound hwf a ha h0) hwf k hk (by dsimp only; omega)
    simpa using hres

/-- `visit` with fuel exceeding the entry cursor always succeeds and
satisfies `VStep`. -/
theorem visit_sound (block : List Ins) (uses : JArray) :
    ∀ (fuel : Nat) (st : EmitState), st.index < fuel →
      ∃ st', visit block uses fuel st = some st' ∧ VStep block st st' := by
  intro fuel
  induction fuel with
  | zero => intro st h; omega
  | succ fuel ih =>
    intro st h
    have h' : st.index ≤ fuel := by omega
    cases hk : (block.getD st.index dIns).kind with
    | Add =>
      obtain ⟨st', heq, hstep⟩ := visit_assemble block uses (visit block uses fuel) fuel ih st h'
        (block.getD st.index dIns).args.reverse Op.add rfl
        (by
          rw [constArgs, hk, List.filter_reverse, List.map_reverse]
          exact List.reverse_perm _)
        (by
          intro hwf a ha _
          exact wfb_spec block hwf st.index a (List.mem_reverse.mp ha))
      refine ⟨st', ?_, hstep⟩
      rw [visit, hk]
      exact heq
    | LocalGet =>
      obtain ⟨st', heq, hstep⟩ := visit_assemble block uses (visit block uses fuel) fuel ih st h'
        ((block.getD st.index dIns).args.drop 1).reverse
        (Op.getLocal (jsNot ((block.getD st.index dIns).args.headD 0))) rfl
        (by
          rw [constArgs, hk, List.filter_reverse, List.map_reverse]
          exact List.reverse_perm _)
        (by
          intro hwf a ha _
          exact wfb_spec block hwf st.index a
            (List.mem_of_mem_drop (List.mem_reverse.mp ha)))
      refine ⟨st', ?_, hstep⟩
      rw [visit, hk]
      exact heq
    | LocalSet =>
      obtain ⟨st', heq, hstep⟩ := visit_assemble block uses (visit block uses fuel) fuel ih st h'
        ((block.getD st.index dIns).args.drop 1).reverse
        (Op.setLocal (jsNot ((block.getD st.index dIns).args.headD 0))) rfl
        (by
          rw [constArgs, hk, List.filter_reverse, List.map_reverse]
          exact List.reverse_perm _)
        (by
          intro hwf a ha _
          exact wfb_spec block hwf st.index a
            (List.mem_of_mem_drop (List.mem_reverse.mp ha)))
      refine ⟨st', ?_, hstep⟩
      rw [visit, hk]
      exact heq

/-- `adjustStore` only moves the cursor and possibly prepends or fuses a
store operation: the slot table and counter are untouched. -/
theorem adjustStore_fields (st : EmitState) (i : Nat) :
    (adjustStore st i).locals = st.locals ∧
    (adjustStore st i).nextLocal = st.nextLocal ∧
    (adjustStore st i).index = i := by
  unfold adjustStore
  split
  · exact ⟨rfl, rfl, rfl⟩
  · split
    · split
      · exact ⟨rfl, rfl, rfl⟩
      · exact ⟨rfl, rfl, rfl⟩
    · exact ⟨rfl, rfl, rfl⟩

/-- `adjustStore` never adds or removes constant-push operations. -/
theorem adjustStore_consts (st : EmitState) (i : Nat) :
    constsOf (adjustStore st i).code = constsOf st.code := by
  unfold adjustStore
  split
  · rfl
  · split
    · split
      · rename_i heq l hc hl
        rw [hc]
        rfl
      · rfl
    · rfl

/-- The code after `adjustStore` is the old code, possibly with one store
prepended, or with a `get_local` head fused into `tee_local`. -/
theorem adjustStore_code (st : EmitState) (i : Nat) :
    (adjustStore st i).code = st.code ∨
    (∃ l, (adjustStore st i).code = Op.setLocal l :: st.code) ∨
    (∃ l tail, st.code = Op.getLocal l :: tail ∧
      (adjustStore st i).code = Op.teeLocal l :: tail) := by
  unfold adjustStore
  split
  · exact Or.inl rfl
  · split
    · split
      · rename_i heq l hc hl
        subst hl
        exact Or.inr (Or.inr ⟨_, _, hc, rfl⟩)
      · exact Or.inr (Or.inl ⟨_, rfl⟩)
    · exact Or.inr (Or.inl ⟨_, rfl⟩)

/-- How the rest of the emitter's driver loop can transform already-emitted
code, seen from a snapshot `c`: it only prepends operations, except that the
(single) head operation of `c` may additionally be fused from a `get_local`
into the matching `tee_local`. -/
def CodeExt (c cF : List Op) : Prop :=
  (∃ pre, cF = pre ++ c) ∨
  (∃ pre l tail, c = Op.getLocal l :: tail ∧ cF = pre ++ Op.teeLocal l :: tail)

theorem codeExt_refl (c : List Op) : CodeExt c c := Or.inl ⟨[], rfl⟩

/-- If the snapshot is shielded by at least one prepended operation, a
`CodeExt` of the whole code extends the shielded part by pure prepending. -/
theorem codeExt_through (d ops cF : List Op) (hne : ops ≠ [])
    (hext : CodeExt (ops ++ d) cF) : ∃ pre, cF = pre ++ d := by
  rcases hext with ⟨pre, hpre⟩ | ⟨pre, l, tail, hc, hF⟩
  · exact ⟨pre ++ ops, by rw [hpre, List.append_assoc]⟩
  · rcases ops with - | ⟨o, ops'⟩
    · exact absurd rfl hne
    · rw [List.cons_append] at hc
      have ho : o = Op.getLocal l := by
        exact (List.cons.inj hc).1
      have htail : ops' ++ d = tail := by
        exact (List.cons.inj hc).2
      refine ⟨pre ++ Op.teeLocal l :: ops', ?_⟩
      rw [hF, ← htail]
      simp

/-- One driver-loop iteration composes with `CodeExt`: the store adjustment
followed by a nonempty batch of visit operations, then any `CodeExt` of the
result, is a `CodeExt` of the original code. -/
theorem codeExt_step (c c1 c2 cF : List Op)
    (hadj : c1 = c ∨ (∃ l, c1 = Op.setLocal l :: c) ∨
      (∃ l tail, c = Op.getLocal l :: tail ∧ c1 = Op.teeLocal l :: tail))
    (ops : List Op) (hne : ops ≠ []) (h2 : c2 = ops ++ c1)
    (hext : CodeExt c2 cF) : CodeExt c cF := by
  rcases hadj with hadj | ⟨l, hadj⟩ | ⟨l, tail, hc, hadj⟩
  · rw [hadj] at h2
    rw [h2] at hext
    exact Or.inl (codeExt_through c ops cF hne hext)
  · rw [hadj] at h2
    rw [h2] at hext
    have h3 : ops ++ Op.setLocal l :: c = (ops ++ [Op.setLocal l]) ++ c := by simp
    rw [h3] at hext
    exact Or.inl (codeExt_through c (ops ++ [Op.setLocal l]) cF (by simp) hext)
  · rw [hadj] at h2
    rw [h2] at hext
    obtain ⟨pre, hpre⟩ := codeExt_through (Op.teeLocal l :: tail) ops cF hne hext
    exact Or.inr ⟨pre, l, tail, hc, hpre⟩

/-- What each trace entry `(root, state at iteration start, state after
visiting the root)` of the emitter satisfies: the cursor at iteration start
is one past the root; the state after is exactly the visit (with the store
adjustment in between); the emitted code survives into the final code up to
`CodeExt`; and slots are preserved.  On well-formed blocks the root's slot
binding never changes after the iteration starts. -/
def TraceEntryOK (block : List Ins) (uses : JArray) (stF : EmitState)
    (e : Nat × EmitState × EmitState) : Prop :=
  e.2.1.index = e.1 + 1 ∧
  visit block uses (e.1 + 1) (adjustStore e.2.1 e.1) = some e.2.2 ∧
  CodeExt e.2.2.code stF.code ∧
  (∀ k v, e.2.1.locals.lookup k = some v → stF.locals.lookup k = some v) ∧
  (wfb block = true → stF.locals.lookup e.1 = e.2.1.locals.lookup e.1)

/-- Soundness of the Stack Emitter's driver loop (in its traced form): with
fuel at least the cursor it always succeeds; the cursor ends at zero; slots
and the table invariant are preserved and only grow; the final code's
constants are those of positions `[0, index)` plus the snapshot's; the
snapshot code survives up to `CodeExt`; slots at or above the cursor are
untouched on well-formed blocks; the trace's consumed ranges tile
`[0, index)` exactly; and every trace entry is `TraceEntryOK`. -/
theorem emitTrace_sound (block : List Ins) (uses : JArray) :
    ∀ (fuel : Nat) (st : EmitState), st.index ≤ fuel →
      ∃ stF tr, emitTrace block uses fuel st = some (stF, tr) ∧
        stF.index = 0 ∧
        st.nextLocal ≤ stF.nextLocal ∧
        (∀ k v, st.locals.lookup k = some v → stF.locals.lookup k = some v) ∧
        (LocInv st → LocInv stF) ∧
        List.Perm (constsOf stF.code) (constRange block 0 st.index ++ constsOf st.code) ∧
        CodeExt st.code stF.code ∧
        (wfb block = true → ∀ j, st.index ≤ j → stF.locals.lookup j = st.locals.lookup j) ∧
        (tr.flatMap fun e => List.range' e.2.2.index (e.1 + 1 - e.2.2.index)) =
          List.range st.index ∧
        (∀ e ∈ tr, TraceEntryOK block uses stF e) := by
  intro fuel
  induction fuel with
  | zero =>
    intro st h
    have h0 : st.index = 0 := by omega
    refine ⟨st, [], ?_, h0, le_refl _, fun k v hv => hv, fun hv => hv, ?_,
      codeExt_refl _, fun _ j _ => rfl, by simp [h0], by simp⟩
    · rw [emitTrace, if_pos h0]
    · rw [h0]
      simp
  | succ fuel ih =>
    intro st h
    by_cases h0 : st.index = 0
    · refine ⟨st, [], ?_, h0, le_refl _, fun k v hv => hv, fun hv => hv, ?_,
        codeExt_refl _, fun _ j _ => rfl, by simp [h0], by simp⟩
      · rw [emitTrace, if_pos h0]
      · rw [h0]
        simp
    · obtain ⟨hadjL, hadjN, hadjI⟩ := adjustStore_fields st (st.index - 1)
      obtain ⟨st2, hv, hvs⟩ := visit_sound block uses st.index
        (adjustStore st (st.index - 1)) (by rw [hadjI]; omega)
      obtain ⟨hvi, hvn, hvlk, hvinv, ⟨ops, hne, hcode, hperm⟩, hvkeys⟩ := hvs
      rw [hadjI] at hvi
      rw [hadjN] at hvn
      rw [hadjL] at hvlk
      rw [hadjL] at hvkeys
      have hst2 : st2.index ≤ fuel := by omega
      obtain ⟨stF, tr, hrec, hFi, hFn, hFlk, hFinv, hFperm, hFext, hFkeys, hFcov, hFent⟩ :=
        ih st2 hst2
      have hconsts2 : List.Perm (constsOf st2.code)
          (constRange block st2.index st.index ++ constsOf st.code) := by
        rw [hcode, constsOf_append, adjustStore_consts]
        have e1 : (adjustStore st (st.index - 1)).index + 1 = st.index := by
          rw [hadjI]; omega
        rw [e1] at hperm
        exact hperm.append_right _
      refine ⟨stF, tr ++ [(st.index - 1, st, st2)], ?_, hFi, by omega,
        fun k v hk => hFlk k v (hvlk k v hk), ?_, ?_, ?_, ?_, ?_, ?_⟩
      · rw [emitTrace, if_neg h0, hv]
        dsimp only
        rw [hrec]
      · intro hIv
        apply hFinv
        apply hvinv
        unfold LocInv at hIv ⊢
        rw [hadjL, hadjN]
        exact hIv
      · have p2 : List.Perm (constRange block 0 st2.index ++ constsOf st2.code)
            (constRange block 0 st2.index ++
              (constRange block st2.index st.index ++ constsOf st.code)) :=
          List.Perm.append_left _ hconsts2
        have p3 := hFperm.trans p2
        rw [← List.append_assoc,
          constRange_append block 0 st2.index st.index (by omega) (by omega)] at p3
        exact p3
      · exact codeExt_step st.code (adjustStore st (st.index - 1)).code st2.code stF.code
          (adjustStore_code st (st.index - 1)) ops hne hcode hFext
      · intro hwf j hj
        rw [hFkeys hwf j (by omega)]
        have hk2 := hvkeys hwf j (by rw [hadjI]; omega)
        rw [hk2]
      · rw [List.flatMap_append]
        simp only [List.flatMap_cons, List.flatMap_nil, List.append_nil]
        rw [hFcov]
        have e1 : st.index - 1 + 1 - st2.index = st.index - st2.index := by omega
        rw [e1]
        rw [List.range_eq_range', List.range_eq_range']
        have h3 := List.range'_append_1 0 st2.index (st.index - st2.index)
        simp only [Nat.zero_add] at h3
        rw [h3]
        congr 1
        omega
      · intro e he
        rcases List.mem_append.mp he with he | he
        · exact hFent e he
        · simp only [List.mem_singleton] at he
          subst he
          refine ⟨by simp; omega, ?_, hFext, fun k v hk => hFlk k v (hvlk k v hk), ?_⟩
          · have e1 : st.index - 1 + 1 = st.index := by omega
            simp only [e1]
            exact hv
          · intro hwf
            have hk1 := hvkeys hwf (st.index - 1) (by rw [hadjI])
            have hk2 := hFkeys hwf (st.index - 1) (by omega)
            simp only []
            rw [hk2, hk1]

/-- The traced loop computes exactly what the plain loop computes. -/
theorem emitTrace_emitLoop (block : List Ins) (uses : JArray) :
    ∀ (fuel : Nat) (st stF : EmitState) (tr : List (Nat × EmitState × EmitState)),
      emitTrace block uses fuel st = some (stF, tr) →
      emitLoop block uses fuel st = some stF := by
  intro fuel
  induction fuel with
  | zero =>
    intro st stF tr h
    rw [emitTrace] at h
    rw [emitLoop]
    by_cases h0 : st.index = 0
    · rw [if_pos h0] at h
      rw [if_pos h0]
      simp only [Option.some.injEq, Prod.mk.injEq] at h
      rw [h.1]
    · rw [if_neg h0] at h
      exact absurd h (by simp)
  | succ fuel ih =>
    intro st stF tr h
    rw [emitTrace] at h
    rw [emitLoop]
    by_cases h0 : st.index = 0
    · rw [if_pos h0] at h
      rw [if_pos h0]
      simp only [Option.some.injEq, Prod.mk.injEq] at h
      rw [h.1]
    · rw [if_neg h0] at h
      rw [if_neg h0]
      cases hv : visit block uses st.index (adjustStore st (st.index - 1)) with
      | none =>
        rw [hv] at h
        exact absurd h (by simp)
      | some st2 =>
        rw [hv] at h
        dsimp only at h
        cases ht : emitTrace block uses fuel st2 with
        | none =>
          rw [ht] at h
          exact absurd h (by simp)
        | some p =>
          rcases p with ⟨stF', tr'⟩
          rw [ht] at h
          simp only [Option.some.injEq, Prod.mk.injEq] at h
          rw [← h.1]
          exact ih st2 stF' tr' ht

/-- The slot table invariant holds initially. -/
theorem locInv_init (n : Nat) : LocInv (initEmit n) := by
  unfold LocInv initEmit
  simp

/-- Both passes of `stackify` always complete (the fuel chosen in the
embedding is always sufficient), and `stackify` returns their results. -/
theorem stackify_sound (block : List Ins) :
    ∃ F stF tr,
      recoverLoop block (computeUses block) block.length block.length [] = some F ∧
      emitTrace block (computeUses block) block.length (initEmit block.length)
        = some (stF, tr) ∧
      emitLoop block (computeUses block) block.length (initEmit block.length) = some stF ∧
      stackify block = some (F, stF.code, stF.locals) := by
  obtain ⟨F, hF, -, -, -⟩ :=
    recoverLoop_sound block (computeUses block) block.length block.length [] (le_refl _)
  rw [List.append_nil] at hF
  obtain ⟨stF, tr, hT, -, -, -, -, -, -, -, -, -⟩ :=
    emitTrace_sound block (computeUses block) block.length (initEmit block.length)
      (le_refl _)
  have hL := emitTrace_emitLoop block (computeUses block) block.length
    (initEmit block.length) stF tr hT
  refine ⟨F, stF, tr, hF, hT, hL, ?_⟩
  rw [stackify]
  rw [hF]
  dsimp only
  rw [hL]

/-- With a slot assigned to the root, `adjustStore` prepends `set_local` —
unless the most recently emitted operation is `get_local` of that exact
slot, which it replaces by `tee_local`. -/
theorem adjustStore_some (st : EmitState) (i s : Nat) (h : st.locals.lookup i = some s) :
    (st.code.head? = some (Op.getLocal (s : Int)) →
      (adjustStore st i).code = Op.teeLocal (s : Int) :: st.code.tail) ∧
    (¬ st.code.head? = some (Op.getLocal (s : Int)) →
      (adjustStore st i).code = Op.setLocal (s : Int) :: st.code) := by
  unfold adjustStore
  rw [h]
  cases hc : st.code with
  | nil =>
    refine ⟨fun hh => ?_, fun _ => rfl⟩
    exact absurd hh (by simp)
  | cons op tail =>
    cases op with
    | getLocal l' =>
      dsimp only
      by_cases hl : l' = (s : Int)
      · subst hl
        rw [if_pos rfl]
        exact ⟨fun _ => rfl, fun hn => absurd rfl hn⟩
      · rw [if_neg hl]
        refine ⟨fun hh => ?_, fun _ => rfl⟩
        simp only [List.head?_cons, Option.some.injEq, Op.getLocal.injEq] at hh
        exact absurd hh hl
    | add =>
      exact ⟨fun hh => absurd hh (by simp), fun _ => rfl⟩
    | const v =>
      exact ⟨fun hh => absurd hh (by simp), fun _ => rfl⟩
    | setLocal l' =>
      exact ⟨fun hh => absurd hh (by simp), fun _ => rfl⟩
    | teeLocal l' =>
      exact ⟨fun hh => absurd hh (by simp), fun _ => rfl⟩

/-- C1 (code bug evidence): on the block `v0 = Add(5); v1 = Add(1);
v2 = Add(v1, v0)`, the Tree Recoverer makes operand `Ref(1)` of `v2` a
back-reference `tree1` (because operand `Ref(0)` to its right already failed
to inline, setting `stopped`), yet the Stack Emitter compiles that same
operand in place: the only load in the emitted sequence is `get_local 100`
for `Ref(0)` — there is none for `Ref(1)`, whose value is computed inline
(`i32.const 1; i32.add`).  The two passes therefore do not share the
inlining decision: `visit` omits the `stopped` test that its own comment and
its dead `let stopped = false` declaration announce. -/
theorem c1_emitter_ignores_stopped :
    stackify [⟨.Add, [-6]⟩, ⟨.Add, [-2]⟩, ⟨.Add, [1, 0]⟩] =
      some ([(0, Tree.node .Add [Tree.num 5]),
             (1, Tree.node .Add [Tree.num 1]),
             (2, Tree.node .Add [Tree.ref 1, Tree.ref 0])],
            [Op.const 5, Op.add, Op.setLocal 100, Op.const 1, Op.add,
             Op.getLocal 100, Op.add],
            [(0, 100)]) ∧
    ([Op.const 5, Op.add, Op.setLocal 100, Op.const 1, Op.add,
      Op.getLocal 100, Op.add].filterMap fun op =>
        match op with
        | Op.getLocal i => some i
        | _ => none) = [(100 : Int)] :=
  ⟨rfl, rfl⟩

/-- C2 (counterexample): on the block `v0 = LocalGet(0); v1 = LocalGet(1);
v2 = Add(v0); v3 = Add(v1, v2)`, operand `Ref(1)` of `v3` has use count
exactly 1, equals the cursor (2) minus 1 when examined, and no operand to
its right in `v3`'s own recovery call failed to inline (operand `Ref(2)`
produced the nested tree `Add(tree0)`); yet it becomes the back-reference
`tree1`, because the `stopped` flag propagated up from the nested recovery
of `v2` (whose operand `Ref(0)` failed).  The claim's three conditions are
therefore not sufficient as stated. -/
theorem c2_counterexample :
    (computeUses [⟨.LocalGet, [-1]⟩, ⟨.LocalGet, [-2]⟩,
      ⟨.Add, [0]⟩, ⟨.Add, [1, 2]⟩]).get 1 = JVal.num 1 ∧
    stackify [⟨.LocalGet, [-1]⟩, ⟨.LocalGet, [-2]⟩, ⟨.Add, [0]⟩, ⟨.Add, [1, 2]⟩] =
      some ([(0, Tree.node .LocalGet [Tree.num 0]),
             (1, Tree.node .LocalGet [Tree.num 1]),
             (3, Tree.node .Add [Tree.ref 1, Tree.node .Add [Tree.ref 0]])],
            [Op.getLocal 0, Op.setLocal 100, Op.getLocal 1,
             Op.getLocal 100, Op.add, Op.add],
            [(0, 100)]) :=
  ⟨rfl, rfl⟩

/-- C2 (amended): a `Ref(arg)` operand examined by a recovery call is
inlined as a nested tree iff its use count is exactly 1, `arg` equals the
current cursor minus 1, and the `stopped` flag is not set — where `stopped`
is set both when an operand to its right in the same call failed to inline
and when an inlined operand to its right returned from a nested recovery
whose own flag was set (the flag propagates upward).  Otherwise the operand
becomes the back-reference leaf `tree arg` and the whole remainder of the
call stays stopped: the cursor no longer moves and no later operand becomes
a nested tree. -/
theorem c2_amended (block : List Ins) (fuel idx : Nat) (arg : Int)
    (rest : List Int) (ch : List Tree) (st : Bool)
    (hfuel : idx ≤ fuel) (harg : 0 ≤ arg) :
    ∃ nw c s e,
      recoverArgs (computeUses block) (recoverTree block (computeUses block) fuel)
          (arg :: rest) idx ch st = some (nw ++ c :: ch, s, e) ∧
      nw.length = rest.length ∧
      ((∃ k cs, c = Tree.node k cs) ↔
        ((computeUses block).get arg.toNat = JVal.num 1 ∧
          arg = (idx : Int) - 1 ∧ st = false)) ∧
      (¬((computeUses block).get arg.toNat = JVal.num 1 ∧
          arg = (idx : Int) - 1 ∧ st = false) →
        (c = Tree.ref arg ∧ e = idx ∧ s = true ∧
          ∀ x ∈ nw, ∀ k cs, x ≠ Tree.node k cs)) := by
  have h1 : ¬ arg < 0 := by omega
  by_cases h2 : (computeUses block).get arg.toNat = JVal.num 1 ∧
      arg = (idx : Int) - 1 ∧ st = false
  · have hidx1 : 1 ≤ idx := by
      rcases h2 with ⟨-, ha, -⟩
      omega
    obtain ⟨t, s1, e1, hrec, he1, hsz⟩ :=
      recoverTree_sound block (computeUses block) fuel (idx - 1) (by omega)
    obtain ⟨kk, cs, hsh⟩ :=
      recoverTree_shape block (computeUses block) fuel (idx - 1) t s1 e1 hrec
    obtain ⟨nw, s, e, heq, he, hlen, hszl⟩ :=
      recoverArgs_sound (computeUses block)
        (recoverTree block (computeUses block) fuel) fuel
        (fun j hj => recoverTree_sound block (computeUses block) fuel j hj)
        rest e1 (t :: ch) (st || s1) (by omega)
    refine ⟨nw, t, s, e, ?_, hlen, ?_, ?_⟩
    · rw [recoverArgs, if_neg h1, if_pos h2, hrec]
      exact heq
    · exact ⟨fun _ => h2, fun _ => ⟨kk, cs, hsh⟩⟩
    · intro hn
      exact absurd h2 hn
  · obtain ⟨nw, heq, hlen, hsh⟩ :=
      recoverArgs_stopped (computeUses block)
        (recoverTree block (computeUses block) fuel) rest idx (Tree.ref arg :: ch)
    refine ⟨nw, Tree.ref arg, true, idx, ?_, hlen, ?_, ?_⟩
    · rw [recoverArgs, if_neg h1, if_neg h2]
      exact heq
    · constructor
      · rintro ⟨kk, cs, hcs⟩
        exact absurd hcs (by simp)
      · intro hcond
        exact absurd hcond h2
    · intro _
      exact ⟨rfl, rfl, rfl, hsh⟩

/-- C2 (witness): the amended rule applied at the concrete inner call from
the counterexample block — the remaining operand `Ref(1)` examined at cursor
2 with the flag already set becomes the back-reference leaf. -/
theorem c2_amended_witness :
    ∃ nw c s e,
      recoverArgs
          (computeUses [⟨.LocalGet, [-1]⟩, ⟨.LocalGet, [-2]⟩,
            ⟨.Add, [0]⟩, ⟨.Add, [1, 2]⟩])
          (recoverTree [⟨.LocalGet, [-1]⟩, ⟨.LocalGet, [-2]⟩,
            ⟨.Add, [0]⟩, ⟨.Add, [1, 2]⟩]
            (computeUses [⟨.LocalGet, [-1]⟩, ⟨.LocalGet, [-2]⟩,
              ⟨.Add, [0]⟩, ⟨.Add, [1, 2]⟩]) 3)
          [(1 : Int)] 2 [Tree.node .Add [Tree.ref 0]] true
        = some (nw ++ c :: [Tree.node .Add [Tree.ref 0]], s, e) ∧
      nw.length = ([] : List Int).length ∧
      ((∃ k cs, c = Tree.node k cs) ↔
        ((computeUses [⟨.LocalGet, [-1]⟩, ⟨.LocalGet, [-2]⟩,
            ⟨.Add, [0]⟩, ⟨.Add, [1, 2]⟩]).get (1 : Int).toNat = JVal.num 1 ∧
          (1 : Int) = (2 : Int) - 1 ∧ true = false)) ∧
      (¬((computeUses [⟨.LocalGet, [-1]⟩, ⟨.LocalGet, [-2]⟩,
            ⟨.Add, [0]⟩, ⟨.Add, [1, 2]⟩]).get (1 : Int).toNat = JVal.num 1 ∧
          (1 : Int) = (2 : Int) - 1 ∧ true = false) →
        (c = Tree.ref 1 ∧ e = 2 ∧ s = true ∧
          ∀ x ∈ nw, ∀ k cs, x ≠ Tree.node k cs)) := by
  have h := c2_amended [⟨.LocalGet, [-1]⟩, ⟨.LocalGet, [-2]⟩,
    ⟨.Add, [0]⟩, ⟨.Add, [1, 2]⟩] 3 2 1 []
    [Tree.node .Add [Tree.ref 0]] true (by decide) (by decide)
  exact h

/-- C3 (counterexample): the block `v0 = Add(v0)` has an operand that
references an index (0) not strictly below its own position — malformed per
the claim — yet the transform raises no `InvalidReference` (there is no
error path in the code at all): it runs to completion and returns a full
forest, operation sequence and slot table, contradicting both directions of
the claim ("fails ... if" and "no partial forest ... is returned"). -/
theorem c3_counterexample :
    wfb [⟨.Add, [0]⟩] = false ∧
    stackify [⟨.Add, [0]⟩] =
      some ([(0, Tree.node .Add [Tree.ref 0])],
            [Op.getLocal 100, Op.add],
            [(0, 100)]) :=
  ⟨rfl, rfl⟩

/-- C3 (amended): the transform never fails on any input: it performs no
reference validation, so malformed (forward or out-of-range) references are
not detected and a result is still produced; in particular no error is
raised on strictly-backward input either. -/
theorem c3_amended_never_fails (block : List Ins) : (stackify block).isSome := by
  obtain ⟨F, stF, tr, -, -, -, hs⟩ := stackify_sound block
  rw [hs]
  rfl

/-- C4 (counterexample): the single-instruction block `LocalGet(Const 0)`
has a `Const(0)` operand (its encoded first operand `~0`), but the emitted
operation sequence is just `get_local 0` — the constant is folded into the
opcode's immediate and no immediate-push (`i32.const`) instruction is ever
produced for it, contradicting the claim's "including the first operand of
LocalGet and LocalSet instructions". -/
theorem c4_counterexample :
    stackify [⟨.LocalGet, [-1]⟩] =
      some ([(0, Tree.node .LocalGet [Tree.num 0])], [Op.getLocal 0], []) ∧
    constsOf [Op.getLocal 0] = [] :=
  ⟨rfl, rfl⟩

/-- C4 (amended): for every block, the multiset of immediate-push
(`i32.const`) values in the emitted operation sequence is exactly the
multiset of `Const` operands of all instructions at operand positions at or
above `lower` — where `lower = 1` for `LocalGet`/`LocalSet` (whose first
operand is embedded as the opcode's own immediate, not pushed) and
`lower = 0` otherwise. -/
theorem c4_amended (block : List Ins) :
    ∃ stF, emitLoop block (computeUses block) block.length (initEmit block.length)
        = some stF ∧
      List.Perm (constsOf stF.code) (constRange block 0 block.length) := by
  obtain ⟨stF, tr, hT, -, -, -, -, hFperm, -, -, -, -⟩ :=
    emitTrace_sound block (computeUses block) block.length (initEmit block.length)
      (le_refl _)
  have hL := emitTrace_emitLoop block (computeUses block) block.length
    (initEmit block.length) stF tr hT
  refine ⟨stF, hL, ?_⟩
  simpa [initEmit] using hFperm

/-- C5: for every well-formed block and every root position `k` that the
final slot table maps to slot `s`, the emitted sequence contains, directly
after the operations computing instruction `k` (the nonempty `ops` batch of
its visit), the store produced by the store-point adjustment, and that whole
shape survives into the final code; the adjustment is a fused
store-and-keep (`tee_local s`) replacing the most recently emitted operation
exactly when that operation was a plain `get_local s`, and a separate
`set_local s` prepended before the untouched older code otherwise. -/
theorem c5_store_tee (block : List Ins) (hwf : wfb block = true)
    (stF : EmitState) (tr : List (Nat × EmitState × EmitState))
    (htr : emitTrace block (computeUses block) block.length (initEmit block.length)
      = some (stF, tr))
    (k : Nat) (stB stV : EmitState) (hmem : (k, stB, stV) ∈ tr)
    (s : Nat) (hs : stF.locals.lookup k = some s) :
    ∃ ops pre,
      ops ≠ [] ∧
      stV.code = ops ++ (adjustStore stB k).code ∧
      stF.code = pre ++ (adjustStore stB k).code ∧
      (stB.code.head? = some (Op.getLocal (s : Int)) →
        (adjustStore stB k).code = Op.teeLocal (s : Int) :: stB.code.tail) ∧
      (¬ stB.code.head? = some (Op.getLocal (s : Int)) →
        (adjustStore stB k).code = Op.setLocal (s : Int) :: stB.code) := by
  obtain ⟨stF', tr', hT, -, -, -, -, -, -, -, -, hFent⟩ :=
    emitTrace_sound block (computeUses block) block.length (initEmit block.length)
      (le_refl _)
  have hinj := htr.symm.trans hT
  simp only [Option.some.injEq, Prod.mk.injEq] at hinj
  obtain ⟨hE1, hE2⟩ := hinj
  subst hE1
  subst hE2
  have hok := hFent (k, stB, stV) hmem
  obtain ⟨hBi, hvisit, hext, hlk, hkey⟩ := hok
  dsimp only at hBi hvisit hext hlk hkey
  have hsB : stB.locals.lookup k = some s := by
    rw [← hkey hwf]
    exact hs
  obtain ⟨hadjL, hadjN, hadjI⟩ := adjustStore_fields stB k
  obtain ⟨stV', hv', hvs⟩ := visit_sound block (computeUses block) (k + 1)
    (adjustStore stB k) (by rw [hadjI]; omega)
  have hVV : stV' = stV := by
    rw [hvisit] at hv'
    exact (Option.some.inj hv').symm
  subst hVV
  obtain ⟨-, -, -, -, ⟨ops, hne, hcode, -⟩, -⟩ := hvs
  rw [hcode] at hext
  obtain ⟨pre, hpre⟩ := codeExt_through (adjustStore stB k).code ops stF.code hne hext
  obtain ⟨htee, hset⟩ := adjustStore_some stB k s hsB
  exact ⟨ops, pre, hne, hcode, hpre, htee, hset⟩

/-- C5 (witness): the store/tee shape at the concrete block
`v0 = Add(); v1 = Add(v0, v0)` — root 0 has slot 100, the most recently
emitted operation at its store-point is `get_local 100`, and the fused
`tee_local 100` results. -/
theorem c5_store_tee_witness :
    ∃ ops pre,
      ops ≠ [] ∧
      EmitState.code ⟨0, [(0, 100)], 101,
          [Op.add, Op.teeLocal 100, Op.getLocal 100, Op.add]⟩ =
        ops ++ (adjustStore
          ⟨1, [(0, 100)], 101, [Op.getLocal 100, Op.getLocal 100, Op.add]⟩ 0).code ∧
      EmitState.code ⟨0, [(0, 100)], 101,
          [Op.add, Op.teeLocal 100, Op.getLocal 100, Op.add]⟩ =
        pre ++ (adjustStore
          ⟨1, [(0, 100)], 101, [Op.getLocal 100, Op.getLocal 100, Op.add]⟩ 0).code ∧
      ((EmitState.code ⟨1, [(0, 100)], 101,
          [Op.getLocal 100, Op.getLocal 100, Op.add]⟩).head?
            = some (Op.getLocal ((100 : Nat) : Int)) →
        (adjustStore
          ⟨1, [(0, 100)], 101, [Op.getLocal 100, Op.getLocal 100, Op.add]⟩ 0).code =
          Op.teeLocal ((100 : Nat) : Int) ::
            (EmitState.code ⟨1, [(0, 100)], 101,
              [Op.getLocal 100, Op.getLocal 100, Op.add]⟩).tail) ∧
      (¬ (EmitState.code ⟨1, [(0, 100)], 101,
          [Op.getLocal 100, Op.getLocal 100, Op.add]⟩).head?
            = some (Op.getLocal ((100 : Nat) : Int)) →
        (adjustStore
          ⟨1, [(0, 100)], 101, [Op.getLocal 100, Op.getLocal 100, Op.add]⟩ 0).code =
          Op.setLocal ((100 : Nat) : Int) ::
            EmitState.code ⟨1, [(0, 100)], 101,
              [Op.getLocal 100, Op.getLocal 100, Op.add]⟩) := by
  have h := c5_store_tee [⟨.Add, []⟩, ⟨.Add, [0, 0]⟩] (by decide)
    ⟨0, [(0, 100)], 101, [Op.add, Op.teeLocal 100, Op.getLocal 100, Op.add]⟩
    [(0, ⟨1, [(0, 100)], 101, [Op.getLocal 100, Op.getLocal 100, Op.add]⟩,
         ⟨0, [(0, 100)], 101, [Op.add, Op.teeLocal 100, Op.getLocal 100, Op.add]⟩),
     (1, ⟨2, [], 100, []⟩,
         ⟨1, [(0, 100)], 101, [Op.getLocal 100, Op.getLocal 100, Op.add]⟩)]
    rfl 0
    ⟨1, [(0, 100)], 101, [Op.getLocal 100, Op.getLocal 100, Op.add]⟩
    ⟨0, [(0, 100)], 101, [Op.add, Op.teeLocal 100, Op.getLocal 100, Op.add]⟩
    (by simp) 100 rfl
  exact h

/-- C6: for every well-formed block, the returned forest is in strictly
increasing root-index order, and the cursor ranges its trees consumed —
`[root + 1 - sizeT tree, root]`, where `sizeT` counts the tree's `node`s,
one per `recoverTree` call, hence one per consumed instruction — tile
`[0, block.length)` exactly: every instruction index is accounted for by
exactly one tree of the forest, as its root or as exactly one of its nested
nodes. -/
theorem c6_coverage (block : List Ins) (_hwf : wfb block = true) :
    ∃ F, recoverLoop block (computeUses block) block.length block.length [] = some F ∧
      (F.flatMap fun p => List.range' (p.1 + 1 - sizeT p.2) (sizeT p.2)) =
        List.range block.length ∧
      List.Pairwise (· < ·) (F.map Prod.fst) := by
  obtain ⟨F, hF, hcov, -, hpw⟩ :=
    recoverLoop_sound block (computeUses block) block.length block.length [] (le_refl _)
  rw [List.append_nil] at hF
  exact ⟨F, hF, hcov, hpw⟩

/-- C6 (witness): coverage and root ordering at the concrete well-formed
block `v0 = Add(); v1 = Add(v0)`. -/
theorem c6_coverage_witness :
    ∃ F, recoverLoop [⟨.Add, []⟩, ⟨.Add, [0]⟩]
        (computeUses [⟨.Add, []⟩, ⟨.Add, [0]⟩]) 2 2 [] = some F ∧
      (F.flatMap fun p => List.range' (p.1 + 1 - sizeT p.2) (sizeT p.2)) =
        List.range 2 ∧
      List.Pairwise (· < ·) (F.map Prod.fst) :=
  c6_coverage [⟨.Add, []⟩, ⟨.Add, [0]⟩] (by decide)

/-- C7: for every well-formed block, the computed use-count array has one
cell per instruction, and the cell for index `k` holds exactly the number of
`Ref(k)` operands across the whole block (cells beyond the block read as
JS `undefined`).  The computation is a pure fold with no effect beyond the
returned array. -/
theorem c7_use_counts (block : List Ins) (hwf : wfb block = true) :
    (computeUses block).len = block.length ∧
    ∀ k, (computeUses block).get k =
      if k < block.length then JVal.num ((refsCount block k : Nat) : Int)
      else JVal.undef := by
  have h := computeUses_aligned block 0 (fun _ => 0) JArray.emptyArr rfl
    (by
      intro k
      rw [if_neg (by omega)]
      rfl)
    (by
      intro j a ha
      have := wfb_spec block hwf j a ha
      push_cast at this ⊢
      omega)
  obtain ⟨hlen, hget⟩ := h
  rw [Nat.zero_add] at hlen
  unfold computeUses
  refine ⟨hlen, fun k => ?_⟩
  have hk := hget k
  rw [Nat.zero_add] at hk
  rw [hk]
  by_cases hkm : k < block.length
  · rw [if_pos hkm, if_pos hkm]
    congr 2
    rw [if_neg (by omega)]
    rw [Nat.zero_add]
    rfl
  · rw [if_neg hkm, if_neg hkm]

/-- C7 (witness): the use counts at the concrete well-formed block
`v0 = Add(); v1 = Add(v0, v0)`. -/
theorem c7_use_counts_witness :
    (computeUses [⟨.Add, []⟩, ⟨.Add, [0, 0]⟩]).len = 2 ∧
    ∀ k, (computeUses [⟨.Add, []⟩, ⟨.Add, [0, 0]⟩]).get k =
      if k < 2 then
        JVal.num ((refsCount [⟨.Add, []⟩, ⟨.Add, [0, 0]⟩] k : Nat) : Int)
      else JVal.undef :=
  c7_use_counts [⟨.Add, []⟩, ⟨.Add, [0, 0]⟩] (by decide)

/-- C8 (counterexample): on the block `v0 = LocalGet(100); v1 = Add(v0, v0)`
the emitter assigns slot 100 to instruction 0 while the source program's own
local-numbering space contains the index 100 (the `LocalGet` immediate): the
assigned slot is not strictly above the source's local numbers — the counter
merely starts at the fixed value 100, which avoids collisions only when all
source local indices are below 100 (here `tee_local 100` even fuses with the
source-program load `get_local 100`). -/
theorem c8_counterexample :
    stackify [⟨.LocalGet, [-101]⟩, ⟨.Add, [0, 0]⟩] =
      some ([(0, Tree.node .LocalGet [Tree.num 100]),
             (1, Tree.node .Add [Tree.ref 0, Tree.ref 0])],
            [Op.getLocal 100, Op.teeLocal 100, Op.getLocal 100, Op.add],
            [(0, 100)]) ∧
    (100 : Int) ∈ sourceLocals [⟨.LocalGet, [-101]⟩, ⟨.Add, [0, 0]⟩] ∧
    ¬ ((100 : Int) < ((100 : Nat) : Int)) :=
  ⟨rfl, by decide, by decide⟩

/-- C8 (amended): the final slot table maps each key to exactly one slot
(keys are never duplicated), bindings made at any point of the run survive
unchanged to the end (lazy assignment, never reassigned), and the assigned
slot values are exactly the consecutive counter values `100, 101, …,
nextLocal - 1`.  Every assigned slot is strictly above every source-program
local index provided all those indices are below the counter's fixed start
100 (the unconditional claim fails, see the counterexample). -/
theorem c8_amended (block : List Ins)
    (hsrc : ∀ l ∈ sourceLocals block, l < 100) :
    ∃ stF tr,
      emitTrace block (computeUses block) block.length (initEmit block.length)
        = some (stF, tr) ∧
      emitLoop block (computeUses block) block.length (initEmit block.length)
        = some stF ∧
      stF.locals.map Prod.snd = (List.range' 100 (stF.nextLocal - 100)).reverse ∧
      (stF.locals.map Prod.fst).Nodup ∧
      100 ≤ stF.nextLocal ∧
      (∀ e ∈ tr, ∀ k v, e.2.1.locals.lookup k = some v →
        stF.locals.lookup k = some v) ∧
      (∀ p ∈ stF.locals, ∀ l ∈ sourceLocals block, l < (p.2 : Int)) := by
  obtain ⟨stF, tr, hT, -, -, -, hFinv, -, -, -, -, hFent⟩ :=
    emitTrace_sound block (computeUses block) block.length (initEmit block.length)
      (le_refl _)
  have hL := emitTrace_emitLoop block (computeUses block) block.length
    (initEmit block.length) stF tr hT
  obtain ⟨hvals, hge, hkeys⟩ := hFinv (locInv_init block.length)
  refine ⟨stF, tr, hT, hL, hvals, hkeys, hge, ?_, ?_⟩
  · intro e he k v hk
    exact (hFent e he).2.2.2.1 k v hk
  · intro p hp l hl
    have hmem : p.2 ∈ stF.locals.map Prod.snd := List.mem_map.mpr ⟨p, hp, rfl⟩
    rw [hvals, List.mem_reverse, List.mem_range'_1] at hmem
    have hls := hsrc l hl
    omega

/-- C8 (witness): the slot-table shape at the concrete block
`v0 = LocalGet(0); v1 = Add(v0, v0)`, whose only source local index is 0. -/
theorem c8_amended_witness :
    ∃ stF tr,
      emitTrace [⟨.LocalGet, [-1]⟩, ⟨.Add, [0, 0]⟩]
          (computeUses [⟨.LocalGet, [-1]⟩, ⟨.Add, [0, 0]⟩]) 2 (initEmit 2)
        = some (stF, tr) ∧
      emitLoop [⟨.LocalGet, [-1]⟩, ⟨.Add, [0, 0]⟩]
          (computeUses [⟨.LocalGet, [-1]⟩, ⟨.Add, [0, 0]⟩]) 2 (initEmit 2)
        = some stF ∧
      stF.locals.map Prod.snd = (List.range' 100 (stF.nextLocal - 100)).reverse ∧
      (stF.locals.map Prod.fst).Nodup ∧
      100 ≤ stF.nextLocal ∧
      (∀ e ∈ tr, ∀ k v, e.2.1.locals.lookup k = some v →
        stF.locals.lookup k = some v) ∧
      (∀ p ∈ stF.locals, ∀ l ∈ sourceLocals [⟨.LocalGet, [-1]⟩, ⟨.Add, [0, 0]⟩],
        l < (p.2 : Int)) :=
  c8_amended [⟨.LocalGet, [-1]⟩, ⟨.Add, [0, 0]⟩] (by decide)

/-- C9: for every well-formed block the transform terminates with a result
(the embedding's fuel, `block.length` for each pass, is always sufficient),
and each instruction position is handled exactly once by each pass: the
consumed cursor ranges of the recovered trees — one position per recovery
call — tile `[0, block.length)` exactly, and so do the consumed cursor
ranges of the emission trace's visits; the cursor only ever decreases. -/
theorem c9_termination (block : List Ins) (_hwf : wfb block = true) :
    ∃ F stF tr,
      stackify block = some (F, stF.code, stF.locals) ∧
      emitTrace block (computeUses block) block.length (initEmit block.length)
        = some (stF, tr) ∧
      (F.flatMap fun p => List.range' (p.1 + 1 - sizeT p.2) (sizeT p.2)) =
        List.range block.length ∧
      (tr.flatMap fun e => List.range' e.2.2.index (e.1 + 1 - e.2.2.index)) =
        List.range block.length := by
  obtain ⟨F, stF, tr, hF, hT, hL, hs⟩ := stackify_sound block
  obtain ⟨F2, hF2, hcov2, -, -⟩ :=
    recoverLoop_sound block (computeUses block) block.length block.length [] (le_refl _)
  rw [List.append_nil] at hF2
  have hFF : F = F2 := Option.some.inj (hF.symm.trans hF2)
  obtain ⟨stF2, tr2, hT2, -, -, -, -, -, -, -, hcovT, -⟩ :=
    emitTrace_sound block (computeUses block) block.length (initEmit block.length)
      (le_refl _)
  have hinj := hT.symm.trans hT2
  simp only [Option.some.injEq, Prod.mk.injEq] at hinj
  obtain ⟨hE1, hE2⟩ := hinj
  refine ⟨F, stF, tr, hs, hT, ?_, ?_⟩
  · rw [hFF]
    exact hcov2
  · rw [hE2]
    exact hcovT

/-- C9 (witness): termination and the exactly-once tilings at the concrete
well-formed block `v0 = Add(); v1 = Add(v0)`. -/
theorem c9_termination_witness :
    ∃ F stF tr,
      stackify [⟨.Add, []⟩, ⟨.Add, [0]⟩] = some (F, stF.code, stF.locals) ∧
      emitTrace [⟨.Add, []⟩, ⟨.Add, [0]⟩]
          (computeUses [⟨.Add, []⟩, ⟨.Add, [0]⟩]) 2 (initEmit 2)
        = some (stF, tr) ∧
      (F.flatMap fun p => List.range' (p.1 + 1 - sizeT p.2) (sizeT p.2)) =
        List.range 2 ∧
      (tr.flatMap fun e => List.range' e.2.2.index (e.1 + 1 - e.2.2.index)) =
        List.range 2 :=
  c9_termination [⟨.Add, []⟩, ⟨.Add, [0]⟩] (by decide)

/-- C10: the empty block is trivially successful: the transform returns an
empty forest, an empty operation sequence and an empty slot table, with no
error. -/
theorem c10_empty_block : stackify [] = some ([], [], []) := rfl

end Stackify
